import Mathlib

/-!
Verification of the `pdfcompress` worker (`src/main.py`) against its
natural-language specification.

The development shallowly embeds the compression worker's logic:

* `pyRoundEven` / `pyRound1` / `pyInt` model Python's `round` (banker's
  rounding) and `int` (truncation toward zero) on exact rationals; the
  source performs these operations on IEEE floats, which we model with
  exact rational arithmetic.
* `PImage` models a PIL image by its mode, pixel dimensions and the
  history of `convert` calls applied to it; `colorize` and `downscale`
  embed `CompressionWorker._colorize` and `CompressionWorker._downscale`.
* `targetDim` embeds the target-dimension computation of
  `CompressionWorker._process_page_images` (lines 137-138 of main.py).
* `processImage` / `processImagesList` / `processPageImages` embed the
  per-page image loop of `CompressionWorker._process_page_images`, with
  the fallible library calls (extract, decode, encode, replace, update)
  abstracted by per-image behaviour descriptors, and the document
  modelled as a map from xref to the bytes stored at that xref.
* `pageLoop` / `runFile` / `runLoop` / `run` embed `CompressionWorker.run`
  as a trace semantics: the result is the list of emitted actions
  (signals, log lines, document saves) plus a flag telling whether an
  uncaught exception escaped the slot.  The cooperative stop event
  (`threading.Event`) is modelled by an optional poll index `stopAt`:
  the event is observed set at exactly the polls numbered `stopAt` and
  later, which is faithful because nothing ever clears the event.
-/

namespace PdfCompress

/-- Python `round(q)`: round half to even, on exact rationals. -/
def pyRoundEven (q : ℚ) : ℤ :=
  if q - ⌊q⌋ < 1/2 then ⌊q⌋
  else if q - ⌊q⌋ > 1/2 then ⌊q⌋ + 1
  else if ⌊q⌋ % 2 = 0 then ⌊q⌋ else ⌊q⌋ + 1

/-- Python `round(q, 1)`: round to one decimal digit, half to even. -/
def pyRound1 (q : ℚ) : ℚ := (pyRoundEven (10 * q) : ℚ) / 10

/-- Python `int(q)`: truncation toward zero. -/
def pyInt (q : ℚ) : ℤ := if 0 ≤ q then ⌊q⌋ else ⌈q⌉

/-- `CompressionSettings` from main.py (the two output-path fields are kept
for completeness; path strings themselves are not modelled). -/
structure CompressionSettings where
  dpi : Nat
  color_mode : String
  jpeg_quality : Nat
  skip_pages_without_images : Bool
  skip_small_images : Bool
  output_dir : Option String
  keep_name_in_output_dir : Bool
deriving DecidableEq, Repr

/-- A PIL image, modelled by its mode, its pixel size, and (as model
instrumentation) the list of `convert` targets applied to it so far. -/
structure PImage where
  mode : String
  width : Nat
  height : Nat
  converts : List String
deriving DecidableEq, Repr

/-- `Image.convert(m)`: the result has mode `m`; we record the call. -/
def PImage.convert (img : PImage) (m : String) : PImage :=
  { img with mode := m, converts := img.converts ++ [m] }

/-- `Image.resize((w, h))`: the result has exactly the requested size. -/
def PImage.resize (img : PImage) (w h : Nat) : PImage :=
  { img with width := w, height := h }

/-- Channel count of a PIL mode (the modes reachable from `_colorize`). -/
def modeChannels (m : String) : Nat :=
  if m = "RGB" then 3 else if m = "L" then 1 else if m = "1" then 1 else 1

/-- `CompressionWorker._colorize` (main.py lines 108-113). -/
def colorize (s : CompressionSettings) (image : PImage) : PImage :=
  if s.color_mode = "Color" then image.convert "RGB"
  else if s.color_mode = "Grayscale" then image.convert "L"
  else ((image.convert "L").convert "1").convert "L"

/-- `CompressionWorker._downscale` (main.py lines 115-119): return the
image unchanged when both dimensions are within target, otherwise resize
to exactly the target dimensions. -/
def downscale (image : PImage) (target_width target_height : Nat) : PImage :=
  if image.width ≤ target_width ∧ image.height ≤ target_height then image
  else image.resize target_width target_height

/-- Target pixel dimension from page geometry (main.py lines 137-138):
`max(1, int(points / 72 * dpi))`, used for both width and height.
`points` is the page dimension in PDF points, modelled as an exact
rational. -/
def targetDim (points : ℚ) (dpi : Nat) : Nat :=
  max 1 (pyInt (points / 72 * dpi)).toNat

/-- The spec's wording of the same computation:
`max(1, round(points / 72 * dpi))` with rounding to the nearest integer
(Python `round`). -/
def targetDimSpec (points : ℚ) (dpi : Nat) : Nat :=
  max 1 (pyRoundEven (points / 72 * dpi)).toNat

/-- Savings computation of `CompressionWorker.run` (main.py lines
181-183): `0` when `before_size` is zero, otherwise
`round((1 - after_size / before_size) * 100, 1)`. -/
def savingsOf (before after : Nat) : ℚ :=
  if 0 < before then pyRound1 ((1 - (after : ℚ) / (before : ℚ)) * 100) else 0

/-!
### Per-page image processing (`CompressionWorker._process_page_images`)

The document is modelled as a map from xref to the byte stream stored at
that xref.  The opaque library calls made for one image are abstracted by
an `ImgBehavior` descriptor: what `doc.extract_image` returns (or that it
raises), what decoded width `Image.open`/`load` yields (or that decoding
raises), what JPEG bytes the colorize/downscale/save pipeline produces
(or that it raises), and whether `page.replace_image` resp.
`doc.update_stream` raise.
-/

/-- Behaviour of the library calls for one embedded image. -/
structure ImgBehavior where
  /-- `doc.extract_image(xref).get("image")`: `none` = the call raises;
  `some []` = a falsy (empty/absent) payload. -/
  extractResult : Option (List Nat)
  /-- Decoded pixel width; `none` = `Image.open`/`load` raises. -/
  decodeWidth : Option Nat
  /-- JPEG bytes produced by colorize/downscale/`save`; `none` = that
  pipeline raises. -/
  encodeResult : Option (List Nat)
  /-- `page.replace_image` raises. -/
  replaceRaises : Bool
  /-- `doc.update_stream` raises. -/
  updateRaises : Bool
deriving DecidableEq, Repr

/-- One entry of `page.get_images(full=True)`: the xref plus the
behaviour of the library calls for it. -/
structure PageImage where
  xref : Nat
  behavior : ImgBehavior
deriving DecidableEq, Repr

/-- Observable actions of the per-page loop: the log line emitted by the
per-image exception handler, carrying the image's xref. -/
inductive PageAct
  | logSkip (xref : Nat)
deriving DecidableEq, Repr

/-- One iteration of the image loop in `_process_page_images` (main.py
lines 125-154): returns the updated document map and the emitted log
actions. -/
def processImage (s : CompressionSettings) (doc : Nat → List Nat)
    (img : PageImage) : (Nat → List Nat) × List PageAct :=
  match img.behavior.extractResult with
  | none => (doc, [PageAct.logSkip img.xref])
  | some bytes =>
    if bytes = [] then (doc, [])
    else
      match img.behavior.decodeWidth with
      | none => (doc, [PageAct.logSkip img.xref])
      | some w =>
        if s.skip_small_images = true ∧ w < 1000 then (doc, [])
        else
          match img.behavior.encodeResult with
          | none => (doc, [PageAct.logSkip img.xref])
          | some jpeg =>
            if img.behavior.replaceRaises ∧ img.behavior.updateRaises then
              (doc, [PageAct.logSkip img.xref])
            else
              (fun y => if y = img.xref then jpeg else doc y, [])

/-- The `for image_info in images` loop of `_process_page_images`. -/
def processImagesList (s : CompressionSettings) (doc : Nat → List Nat) :
    List PageImage → (Nat → List Nat) × List PageAct
  | [] => (doc, [])
  | img :: rest =>
    let r1 := processImage s doc img
    let r2 := processImagesList s r1.1 rest
    (r2.1, r1.2 ++ r2.2)

/-- `CompressionWorker._process_page_images` (main.py lines 121-154),
including the early return for pages without images. -/
def processPageImages (s : CompressionSettings) (doc : Nat → List Nat)
    (images : List PageImage) : (Nat → List Nat) × List PageAct :=
  if images = [] ∧ s.skip_pages_without_images = true then (doc, [])
  else processImagesList s doc images

/-!
### The batch loop (`CompressionWorker.run`)

`run` is embedded as a trace semantics.  Each poll of the stop event
consumes one poll index; `stopAt = some t` means the event is observed
set at polls `t, t+1, ...` (the event is never cleared, so once set it
stays set).  The per-file fallible operations are abstracted by a
`FileEnv` descriptor.  The trace records the Qt signal emissions, the
timestamped log lines (payload elided) and the `doc.save` effect.
-/

/-- Terminal status text passed to `file_finished`. -/
inductive Status
  | done
  | error
deriving DecidableEq, Repr

/-- Savings column text of `file_finished`: a percentage string or "-". -/
inductive Sav
  | dash
  | pct (q : ℚ)
deriving DecidableEq, Repr

/-- Observable actions of `CompressionWorker.run`. -/
inductive Act
  | fileStarted (i : Nat)
  | logged
  | progressFile (p : Nat)
  | saved (i : Nat)
  | fileFinished (i : Nat) (st : Status) (before after : Nat) (sv : Sav)
  | progressOverall (p : Nat)
  | finished
deriving DecidableEq, Repr

/-- Behaviour of the fallible operations for one file of the batch. -/
structure FileEnv where
  /-- `_determine_output_path` raises (e.g. `mkdir` fails).  This call
  happens before the per-file `try` block. -/
  outputPathFails : Bool
  /-- `input_path.stat().st_size`; `none` = `stat` raises. -/
  beforeSize : Option Nat
  /-- `none` = `fitz.open` raises; `some ps` = the document opens with
  `ps.length` pages, page `i` raising during load/processing iff
  `ps.get i = true`. -/
  pages : Option (List Bool)
  /-- `none` = `doc.save` raises; `some a` = the output file is saved
  and its `stat` reports size `a`. -/
  saveResult : Option Nat
deriving DecidableEq, Repr

/-- Whether the stop event is observed set at poll number `k`. -/
def isSet (stopAt : Option Nat) (k : Nat) : Bool :=
  match stopAt with
  | none => false
  | some t => t ≤ k

/-- Result of the page loop: it either raised inside the `try`, or
control fell through to line 177 (pages exhausted or stop-break). -/
inductive PRes
  | fellThrough
  | raised
deriving DecidableEq, Repr

/-- The page loop of `run` (main.py lines 170-176): `idx` is the current
page index, `k` the next poll number, `total` the page count.  Returns
the emitted actions, the next poll number and how the loop ended. -/
def pageLoop (stopAt : Option Nat) (total : Nat) :
    List Bool → Nat → Nat → List Act × Nat × PRes
  | [], _, k => ([], k, PRes.fellThrough)
  | pr :: rest, idx, k =>
    if isSet stopAt k then ([], k + 1, PRes.fellThrough)
    else if pr then ([], k + 1, PRes.raised)
    else
      let r := pageLoop stopAt total rest (idx + 1) (k + 1)
      (Act.progressFile ((idx + 1) * 100 / total) :: r.1, r.2)

/-- How one file's iteration ended: fall through to the next file, break
out of the batch loop (stop observed at line 177), or an uncaught
exception escaping `run` (output-path computation raised). -/
inductive FRes
  | nextFile
  | breakBatch
  | abort
deriving DecidableEq, Repr

/-- The `except` branch actions of `run` (main.py lines 192-195),
followed by the overall-progress emission of line 195. -/
def errActs (total i : Nat) : List Act :=
  [Act.fileFinished i Status.error 0 0 Sav.dash, Act.logged,
   Act.progressOverall ((i + 1) * 100 / total)]

/-- One iteration of the file loop of `run` (main.py lines 162-195),
after the top-of-loop stop check.  `i` is the file index, `k` the next
poll number. -/
def runFile (stopAt : Option Nat) (total i k : Nat) (e : FileEnv) :
    List Act × Nat × FRes :=
  let start := [Act.fileStarted i, Act.logged]
  if e.outputPathFails then (start, k, FRes.abort)
  else
    match e.beforeSize with
    | none => (start ++ errActs total i, k, FRes.nextFile)
    | some before =>
      match e.pages with
      | none => (start ++ errActs total i, k, FRes.nextFile)
      | some ps =>
        let pl := pageLoop stopAt ps.length ps 0 k
        match pl.2.2 with
        | PRes.raised => (start ++ pl.1 ++ errActs total i, pl.2.1, FRes.nextFile)
        | PRes.fellThrough =>
          if isSet stopAt pl.2.1 then (start ++ pl.1, pl.2.1 + 1, FRes.breakBatch)
          else
            match e.saveResult with
            | none => (start ++ pl.1 ++ errActs total i, pl.2.1 + 1, FRes.nextFile)
            | some after =>
              (start ++ pl.1 ++
                [Act.saved i,
                 Act.fileFinished i Status.done before after
                   (Sav.pct (savingsOf before after)),
                 Act.logged,
                 Act.progressOverall ((i + 1) * 100 / total)],
               pl.2.1 + 1, FRes.nextFile)

/-- The file loop of `run` (main.py lines 159-195).  Returns the trace
and whether an uncaught exception escaped the loop. -/
def runLoop (stopAt : Option Nat) (total : Nat) :
    List FileEnv → Nat → Nat → List Act × Bool
  | [], _, _ => ([], false)
  | e :: rest, i, k =>
    if isSet stopAt k then ([], false)
    else
      let rf := runFile stopAt total i (k + 1) e
      match rf.2.2 with
      | FRes.abort => (rf.1, true)
      | FRes.breakBatch => (rf.1, false)
      | FRes.nextFile =>
        let rl := runLoop stopAt total rest (i + 1) rf.2.1
        (rf.1 ++ rl.1, rl.2)

/-- `CompressionWorker.run` (main.py lines 156-196): the whole batch.
When no exception escapes, `finished` is emitted after the loop. -/
def run (files : List FileEnv) (stopAt : Option Nat) : List Act × Bool :=
  let rl := runLoop stopAt files.length files 0 0
  if rl.2 then (rl.1, true) else (rl.1 ++ [Act.finished], false)

/-- Number of `finished` emissions in a trace. -/
def countFinished : List Act → Nat
  | [] => 0
  | Act.finished :: rest => countFinished rest + 1
  | _ :: rest => countFinished rest

/-!
### Derived characterizations (proved equal to the embeddings below)
-/

/-- Bytes the image loop writes at an image's xref, `none` when the
image is skipped.  Characterizes `processImage` (see
`processImage_eq`). -/
def imgWrites (s : CompressionSettings) (b : ImgBehavior) : Option (List Nat) :=
  match b.extractResult with
  | none => none
  | some bytes =>
    if bytes = [] then none
    else
      match b.decodeWidth with
      | none => none
      | some w =>
        if s.skip_small_images = true ∧ w < 1000 then none
        else
          match b.encodeResult with
          | none => none
          | some jpeg =>
            if b.replaceRaises ∧ b.updateRaises then none else some jpeg

/-- Whether the image loop logs a skip line for this image.
Characterizes `processImage` (see `processImage_eq`). -/
def imgLogs (s : CompressionSettings) (b : ImgBehavior) : Bool :=
  match b.extractResult with
  | none => true
  | some bytes =>
    if bytes = [] then false
    else
      match b.decodeWidth with
      | none => true
      | some w =>
        if s.skip_small_images = true ∧ w < 1000 then false
        else
          match b.encodeResult with
          | none => true
          | some _ => b.replaceRaises && b.updateRaises

/-- Log actions of the image loop, image by image. -/
def pageTrace (s : CompressionSettings) : List PageImage → List PageAct
  | [] => []
  | img :: rest =>
    (if imgLogs s img.behavior then [PageAct.logSkip img.xref] else []) ++
      pageTrace s rest

/-- Value stored at xref `x` after the image loop, starting from `v`. -/
def finalAt (s : CompressionSettings) (x : Nat) : List PageImage → List Nat → List Nat
  | [], v => v
  | img :: rest, v =>
    finalAt s x rest
      (match imgWrites s img.behavior with
       | some jpeg => if x = img.xref then jpeg else v
       | none => v)

/-- Whether the `try` body of `run`'s file loop raises for this file
(stat, open, a page, or save), assuming no stop request. -/
def bodyFailsB (e : FileEnv) : Bool :=
  match e.beforeSize with
  | none => true
  | some _ =>
    match e.pages with
    | none => true
    | some ps => decide (true ∈ ps) || e.saveResult.isNone

/-- Closed form of `pageLoop` when no stop is ever requested. -/
def pageActsNoStop (total : Nat) : List Bool → Nat → List Act × PRes
  | [], _ => ([], PRes.fellThrough)
  | pr :: rest, idx =>
    if pr then ([], PRes.raised)
    else
      let r := pageActsNoStop total rest (idx + 1)
      (Act.progressFile ((idx + 1) * 100 / total) :: r.1, r.2)

/-- Closed form of one file's trace in `run` when no stop is ever
requested and `_determine_output_path` does not raise. -/
def fileActsNoStop (total i : Nat) (e : FileEnv) : List Act :=
  [Act.fileStarted i, Act.logged] ++
    (match e.beforeSize with
     | none => errActs total i
     | some before =>
       match e.pages with
       | none => errActs total i
       | some ps =>
         (pageActsNoStop ps.length ps 0).1 ++
           (match (pageActsNoStop ps.length ps 0).2 with
            | PRes.raised => errActs total i
            | PRes.fellThrough =>
              match e.saveResult with
              | none => errActs total i
              | some after =>
                [Act.saved i,
                 Act.fileFinished i Status.done before after
                   (Sav.pct (savingsOf before after)),
                 Act.logged,
                 Act.progressOverall ((i + 1) * 100 / total)]))

/-- Closed form of the whole batch trace when no stop is ever requested
and no output-path computation raises. -/
def batchActsNoStop (total : Nat) : List FileEnv → Nat → List Act
  | [], _ => []
  | e :: rest, i => fileActsNoStop total i e ++ batchActsNoStop total rest (i + 1)

/-!
### Helper lemmas: the per-page image loop
-/

theorem processImage_eq (s : CompressionSettings) (doc : Nat → List Nat)
    (img : PageImage) :
    processImage s doc img =
      ((match imgWrites s img.behavior with
        | none => doc
        | some jpeg => fun y => if y = img.xref then jpeg else doc y),
       if imgLogs s img.behavior then [PageAct.logSkip img.xref] else []) := by
  unfold processImage imgWrites imgLogs
  cases hext : img.behavior.extractResult with
  | none => simp
  | some bytes =>
    by_cases hb : bytes = []
    · simp [hb]
    · simp only [hb, if_false]
      cases hdw : img.behavior.decodeWidth with
      | none => simp
      | some w =>
        by_cases hsm : s.skip_small_images = true ∧ w < 1000
        · simp [hsm]
        · simp only [hsm, if_false]
          cases henc : img.behavior.encodeResult with
          | none => simp
          | some jpeg =>
            by_cases hrep : img.behavior.replaceRaises ∧ img.behavior.updateRaises
            · simp [hrep]
            · simp [hrep]

theorem processImagesList_snd (s : CompressionSettings) (doc : Nat → List Nat)
    (imgs : List PageImage) :
    (processImagesList s doc imgs).2 = pageTrace s imgs := by
  induction imgs generalizing doc with
  | nil => rfl
  | cons img rest ih =>
    simp [processImagesList, pageTrace, processImage_eq, ih]

theorem processImagesList_fst_at (s : CompressionSettings) (doc : Nat → List Nat)
    (imgs : List PageImage) (x : Nat) :
    (processImagesList s doc imgs).1 x = finalAt s x imgs (doc x) := by
  induction imgs generalizing doc with
  | nil => rfl
  | cons img rest ih =>
    simp [processImagesList, finalAt, processImage_eq, ih]
    cases imgWrites s img.behavior <;> simp

theorem finalAt_skip (s : CompressionSettings) (x : Nat) (imgs : List PageImage)
    (v : List Nat) (h : ∀ img ∈ imgs, img.xref ≠ x) :
    finalAt s x imgs v = v := by
  induction imgs generalizing v with
  | nil => rfl
  | cons img rest ih =>
    have hx : img.xref ≠ x := h img (List.mem_cons_self _ _)
    have hrest : ∀ im ∈ rest, im.xref ≠ x := fun im hm => h im (List.mem_cons_of_mem _ hm)
    simp only [finalAt]
    cases imgWrites s img.behavior with
    | none => exact ih _ hrest
    | some jpeg =>
      simp only [if_neg (Ne.symm hx)]
      exact ih _ hrest

theorem finalAt_unique (s : CompressionSettings) (x : Nat) (v : List Nat)
    (imgs : List PageImage) (img : PageImage) (hmem : img ∈ imgs)
    (hx : x = img.xref) (hnd : (imgs.map PageImage.xref).Nodup) :
    finalAt s x imgs v =
      (match imgWrites s img.behavior with | none => v | some jpeg => jpeg) := by
  induction imgs generalizing v with
  | nil => cases hmem
  | cons hd rest ih =>
    have hnd' := hnd
    rw [List.map_cons, List.nodup_cons] at hnd'
    rcases List.mem_cons.mp hmem with heq | hmem'
    · subst heq
      have hrest : ∀ im ∈ rest, im.xref ≠ x := by
        intro im hm he
        have hmm := List.mem_map_of_mem PageImage.xref hm
        rw [he, hx] at hmm
        exact hnd'.1 hmm
      simp only [finalAt]
      cases imgWrites s img.behavior with
      | none => exact finalAt_skip s x rest v hrest
      | some jpeg =>
        simp only [if_pos hx]
        exact finalAt_skip s x rest jpeg hrest
    · have hne : x ≠ hd.xref := by
        intro he
        have hmm := List.mem_map_of_mem PageImage.xref hmem'
        rw [← hx, he] at hmm
        exact hnd'.1 hmm
      simp only [finalAt]
      cases imgWrites s hd.behavior with
      | none => exact ih _ hmem' hnd'.2
      | some jpeg =>
        simp only [if_neg hne]
        exact ih _ hmem' hnd'.2

theorem pageTrace_mem_of (s : CompressionSettings) (imgs : List PageImage)
    (img : PageImage) (hmem : img ∈ imgs) (hl : imgLogs s img.behavior = true) :
    PageAct.logSkip img.xref ∈ pageTrace s imgs := by
  induction imgs with
  | nil => cases hmem
  | cons hd rest ih =>
    rcases List.mem_cons.mp hmem with heq | hmem'
    · subst heq
      simp [pageTrace, hl]
    · simp only [pageTrace, List.mem_append]
      exact Or.inr (ih hmem')

theorem mem_pageTrace (s : CompressionSettings) (imgs : List PageImage) (x : Nat)
    (h : PageAct.logSkip x ∈ pageTrace s imgs) :
    ∃ img ∈ imgs, img.xref = x ∧ imgLogs s img.behavior = true := by
  induction imgs with
  | nil => cases h
  | cons hd rest ih =>
    simp only [pageTrace, List.mem_append] at h
    rcases h with h1 | h2
    · by_cases hl : imgLogs s hd.behavior = true
      · rw [if_pos hl] at h1
        simp at h1
        exact ⟨hd, List.mem_cons_self _ _, h1.symm, hl⟩
      · rw [if_neg hl] at h1
        cases h1
    · obtain ⟨img, hm, hx, hl⟩ := ih h2
      exact ⟨img, List.mem_cons_of_mem _ hm, hx, hl⟩

theorem processPageImages_eq (s : CompressionSettings) (doc : Nat → List Nat)
    (imgs : List PageImage) :
    processPageImages s doc imgs = processImagesList s doc imgs := by
  unfold processPageImages
  split
  · rename_i h
    rw [h.1]
    rfl
  · rfl

/-!
### Helper lemmas: the batch loop
-/

theorem pageLoop_mem (stopAt : Option Nat) (total : Nat) (ps : List Bool)
    (idx k : Nat) (x : Act) (h : x ∈ (pageLoop stopAt total ps idx k).1) :
    ∃ p, x = Act.progressFile p := by
  induction ps generalizing idx k with
  | nil => cases h
  | cons pr rest ih =>
    simp only [pageLoop] at h
    by_cases hs : isSet stopAt k = true
    · simp [hs] at h
    · simp only [hs, Bool.false_eq_true, if_false] at h
      by_cases hp : pr = true
      · simp [hp] at h
      · simp only [hp, Bool.false_eq_true, if_false, List.mem_cons] at h
        rcases h with h1 | h2
        · exact ⟨_, h1⟩
        · exact ih (idx + 1) (k + 1) h2

theorem runFile_spec (stopAt : Option Nat) (total i k : Nat) (e : FileEnv) :
    (e.outputPathFails = true ∧
      runFile stopAt total i k e = ([Act.fileStarted i, Act.logged], k, FRes.abort)) ∨
    (e.outputPathFails = false ∧
      ∃ pacts, (∀ x ∈ pacts, ∃ p, x = Act.progressFile p) ∧
        ∃ k2, (runFile stopAt total i k e =
            ([Act.fileStarted i, Act.logged] ++ pacts ++ errActs total i, k2,
             FRes.nextFile) ∨
         runFile stopAt total i k e =
            ([Act.fileStarted i, Act.logged] ++ pacts, k2, FRes.breakBatch) ∨
         (∃ b a, runFile stopAt total i k e =
            ([Act.fileStarted i, Act.logged] ++ pacts ++
              [Act.saved i,
               Act.fileFinished i Status.done b a (Sav.pct (savingsOf b a)),
               Act.logged, Act.progressOverall ((i + 1) * 100 / total)], k2,
             FRes.nextFile)))) := by
  by_cases ho : e.outputPathFails = true
  · exact Or.inl ⟨ho, by simp [runFile, ho]⟩
  · rw [Bool.not_eq_true] at ho
    refine Or.inr ⟨ho, ?_⟩
    cases hb : e.beforeSize with
    | none =>
      exact ⟨[], by simp, k, Or.inl (by simp [runFile, ho, hb])⟩
    | some before =>
      cases hp : e.pages with
      | none =>
        exact ⟨[], by simp, k, Or.inl (by simp [runFile, ho, hb, hp])⟩
      | some ps =>
        refine ⟨(pageLoop stopAt ps.length ps 0 k).1,
          fun x hx => pageLoop_mem stopAt ps.length ps 0 k x hx, ?_⟩
        cases hres : (pageLoop stopAt ps.length ps 0 k).2.2 with
        | raised =>
          refine ⟨(pageLoop stopAt ps.length ps 0 k).2.1, Or.inl ?_⟩
          simp [runFile, ho, hb, hp, hres]
        | fellThrough =>
          by_cases hset : isSet stopAt (pageLoop stopAt ps.length ps 0 k).2.1 = true
          · refine ⟨(pageLoop stopAt ps.length ps 0 k).2.1 + 1, Or.inr (Or.inl ?_)⟩
            simp [runFile, ho, hb, hp, hres, hset]
          · rw [Bool.not_eq_true] at hset
            cases hsv : e.saveResult with
            | none =>
              refine ⟨(pageLoop stopAt ps.length ps 0 k).2.1 + 1, Or.inl ?_⟩
              simp [runFile, ho, hb, hp, hres, hset, hsv]
            | some after =>
              refine ⟨(pageLoop stopAt ps.length ps 0 k).2.1 + 1,
                Or.inr (Or.inr ⟨before, after, ?_⟩)⟩
              simp [runFile, ho, hb, hp, hres, hset, hsv]

theorem runFile_no_finished (stopAt : Option Nat) (total i k : Nat) (e : FileEnv) :
    Act.finished ∉ (runFile stopAt total i k e).1 := by
  intro h
  rcases runFile_spec stopAt total i k e with ⟨_, he⟩ | ⟨_, pacts, hsh, k2, he | he | ⟨b, a, he⟩⟩ <;>
      rw [he] at h <;> simp [errActs] at h <;>
    (obtain ⟨p, hp⟩ := hsh _ h; cases hp)

theorem runFile_started (stopAt : Option Nat) (total i k : Nat) (e : FileEnv)
    (j : Nat) (h : Act.fileStarted j ∈ (runFile stopAt total i k e).1) : j = i := by
  rcases runFile_spec stopAt total i k e with ⟨_, he⟩ | ⟨_, pacts, hsh, k2, he | he | ⟨b, a, he⟩⟩ <;>
      rw [he] at h <;> simp [errActs] at h
  · exact h
  · rcases h with h | h
    · exact h
    · obtain ⟨p, hp⟩ := hsh _ h
      cases hp
  · rcases h with h | h
    · exact h
    · obtain ⟨p, hp⟩ := hsh _ h
      cases hp
  · rcases h with h | h
    · exact h
    · obtain ⟨p, hp⟩ := hsh _ h
      cases hp

theorem runFile_saved (stopAt : Option Nat) (total i k : Nat) (e : FileEnv)
    (j : Nat) (h : Act.saved j ∈ (runFile stopAt total i k e).1) :
    j = i ∧ ∃ b a sv, Act.fileFinished i Status.done b a sv ∈ (runFile stopAt total i k e).1 := by
  rcases runFile_spec stopAt total i k e with ⟨_, he⟩ | ⟨_, pacts, hsh, k2, he | he | ⟨b, a, he⟩⟩ <;>
      rw [he] <;> rw [he] at h <;> simp [errActs] at h
  · obtain ⟨p, hp⟩ := hsh _ h
    cases hp
  · obtain ⟨p, hp⟩ := hsh _ h
    cases hp
  · rcases h with h | h
    · obtain ⟨p, hp⟩ := hsh _ h
      cases hp
    · refine ⟨h, b, a, Sav.pct (savingsOf b a), ?_⟩
      simp

theorem runFile_terminal (stopAt : Option Nat) (total i k : Nat) (e : FileEnv)
    (h : (runFile stopAt total i k e).2.2 = FRes.nextFile) :
    ∃ st b a sv, Act.fileFinished i st b a sv ∈ (runFile stopAt total i k e).1 := by
  rcases runFile_spec stopAt total i k e with ⟨_, he⟩ | ⟨_, pacts, hsh, k2, he | he | ⟨b, a, he⟩⟩ <;>
      rw [he] at h ⊢ <;> simp [errActs] at h ⊢
  · exact ⟨Status.error, 0, 0, Sav.dash, by simp⟩
  · exact ⟨Status.done, b, a, Sav.pct (savingsOf b a), by simp⟩

theorem runFile_not_abort (stopAt : Option Nat) (total i k : Nat) (e : FileEnv)
    (ho : e.outputPathFails = false) : (runFile stopAt total i k e).2.2 ≠ FRes.abort := by
  rcases runFile_spec stopAt total i k e with ⟨hf, he⟩ | ⟨_, pacts, hsh, k2, he | he | ⟨b, a, he⟩⟩ <;>
      rw [he]
  · rw [ho] at hf
    cases hf
  all_goals simp

theorem runLoop_no_finished (stopAt : Option Nat) (total : Nat) (fs : List FileEnv)
    (i k : Nat) : Act.finished ∉ (runLoop stopAt total fs i k).1 := by
  induction fs generalizing i k with
  | nil => simp [runLoop]
  | cons e rest ih =>
    intro h
    simp only [runLoop] at h
    by_cases hs : isSet stopAt k = true
    · simp [hs] at h
    · simp only [hs, Bool.false_eq_true, if_false] at h
      cases hres : (runFile stopAt total i (k + 1) e).2.2 <;> simp only [hres] at h
      · rcases List.mem_append.mp h with h1 | h2
        · exact runFile_no_finished stopAt total i (k + 1) e h1
        · exact ih (i + 1) _ h2
      · exact runFile_no_finished stopAt total i (k + 1) e h
      · exact runFile_no_finished stopAt total i (k + 1) e h

theorem runLoop_not_aborted (stopAt : Option Nat) (total : Nat) (fs : List FileEnv)
    (i k : Nat) (h : ∀ e ∈ fs, e.outputPathFails = false) :
    (runLoop stopAt total fs i k).2 = false := by
  induction fs generalizing i k with
  | nil => rfl
  | cons e rest ih =>
    simp only [runLoop]
    by_cases hs : isSet stopAt k = true
    · simp [hs]
    · simp only [hs, Bool.false_eq_true, if_false]
      cases hres : (runFile stopAt total i (k + 1) e).2.2
      · simp only [hres]
        exact ih (i + 1) _ (fun x hx => h x (List.mem_cons_of_mem _ hx))
      · simp [hres]
      · exact absurd hres (runFile_not_abort stopAt total i (k + 1) e
          (h e (List.mem_cons_self _ _)))

theorem runLoop_saved (stopAt : Option Nat) (total : Nat) (fs : List FileEnv)
    (i k : Nat) (j : Nat) (h : Act.saved j ∈ (runLoop stopAt total fs i k).1) :
    ∃ b a sv, Act.fileFinished j Status.done b a sv ∈ (runLoop stopAt total fs i k).1 := by
  induction fs generalizing i k with
  | nil => cases h
  | cons e rest ih =>
    simp only [runLoop] at h ⊢
    by_cases hs : isSet stopAt k = true
    · simp [hs] at h
    · simp only [hs, Bool.false_eq_true, if_false] at h ⊢
      cases hres : (runFile stopAt total i (k + 1) e).2.2 <;> simp only [hres] at h ⊢
      · rcases List.mem_append.mp h with h1 | h2
        · obtain ⟨hj, b, a, sv, hf⟩ := runFile_saved stopAt total i (k + 1) e j h1
          subst hj
          exact ⟨b, a, sv, List.mem_append.mpr (Or.inl hf)⟩
        · obtain ⟨b, a, sv, hf⟩ := ih (i + 1) _ h2
          exact ⟨b, a, sv, List.mem_append.mpr (Or.inr hf)⟩
      · obtain ⟨hj, b, a, sv, hf⟩ := runFile_saved stopAt total i (k + 1) e j h
        subst hj
        exact ⟨b, a, sv, hf⟩
      · obtain ⟨hj, b, a, sv, hf⟩ := runFile_saved stopAt total i (k + 1) e j h
        subst hj
        exact ⟨b, a, sv, hf⟩

theorem runLoop_seq (stopAt : Option Nat) (total : Nat) (fs : List FileEnv)
    (i k : Nat) (i' j : Nat) (hii : i ≤ i') (hij : i' < j)
    (h : Act.fileStarted j ∈ (runLoop stopAt total fs i k).1) :
    ∃ st b a sv, Act.fileFinished i' st b a sv ∈ (runLoop stopAt total fs i k).1 := by
  induction fs generalizing i k with
  | nil => cases h
  | cons e rest ih =>
    simp only [runLoop] at h ⊢
    by_cases hs : isSet stopAt k = true
    · simp [hs] at h
    · simp only [hs, Bool.false_eq_true, if_false] at h ⊢
      cases hres : (runFile stopAt total i (k + 1) e).2.2 <;> simp only [hres] at h ⊢
      · rcases List.mem_append.mp h with h1 | h2
        · have hj := runFile_started stopAt total i (k + 1) e j h1
          omega
        · rcases Nat.lt_or_ge i i' with hlt | hge
          · obtain ⟨st, b, a, sv, hf⟩ := ih (i + 1) _ hlt h2
            exact ⟨st, b, a, sv, List.mem_append.mpr (Or.inr hf)⟩
          · have hi : i' = i := Nat.le_antisymm hge hii
            subst hi
            obtain ⟨st, b, a, sv, hf⟩ := runFile_terminal stopAt total i' (k + 1) e hres
            exact ⟨st, b, a, sv, List.mem_append.mpr (Or.inl hf)⟩
      · have hj := runFile_started stopAt total i (k + 1) e j h
        omega
      · have hj := runFile_started stopAt total i (k + 1) e j h
        omega

/-!
### Helper lemmas: the batch loop without a stop request
-/

theorem pageLoop_none (total : Nat) (ps : List Bool) (idx k : Nat) :
    ∃ k2, pageLoop none total ps idx k =
      ((pageActsNoStop total ps idx).1, k2, (pageActsNoStop total ps idx).2) := by
  induction ps generalizing idx k with
  | nil => exact ⟨k, rfl⟩
  | cons pr rest ih =>
    by_cases hp : pr = true
    · exact ⟨k + 1, by simp [pageLoop, pageActsNoStop, isSet, hp]⟩
    · obtain ⟨k2, hk⟩ := ih (idx + 1) (k + 1)
      exact ⟨k2, by simp [pageLoop, pageActsNoStop, isSet, hp, hk]⟩

theorem runFile_none (total i k : Nat) (e : FileEnv)
    (ho : e.outputPathFails = false) :
    ∃ k2, runFile none total i k e = (fileActsNoStop total i e, k2, FRes.nextFile) := by
  unfold runFile fileActsNoStop
  simp only [ho, Bool.false_eq_true, if_false]
  cases hb : e.beforeSize with
  | none => exact ⟨k, rfl⟩
  | some before =>
    cases hp : e.pages with
    | none => exact ⟨k, rfl⟩
    | some ps =>
      dsimp only
      obtain ⟨k2, hk⟩ := pageLoop_none ps.length ps 0 k
      rw [hk]
      cases hres : (pageActsNoStop ps.length ps 0).2 with
      | raised => exact ⟨k2, by simp⟩
      | fellThrough =>
        cases hsv : e.saveResult with
        | none => exact ⟨k2 + 1, by simp [isSet]⟩
        | some after => exact ⟨k2 + 1, by simp [isSet]⟩

theorem runLoop_none (total : Nat) (fs : List FileEnv) (i k : Nat)
    (h : ∀ e ∈ fs, e.outputPathFails = false) :
    runLoop none total fs i k = (batchActsNoStop total fs i, false) := by
  induction fs generalizing i k with
  | nil => rfl
  | cons e rest ih =>
    obtain ⟨k2, hk⟩ := runFile_none total i (k + 1) e (h e (List.mem_cons_self _ _))
    simp [runLoop, isSet, hk, batchActsNoStop,
      ih (i + 1) k2 (fun x hx => h x (List.mem_cons_of_mem _ hx))]

theorem run_none (files : List FileEnv)
    (h : ∀ e ∈ files, e.outputPathFails = false) :
    run files none =
      (batchActsNoStop files.length files 0 ++ [Act.finished], false) := by
  unfold run
  rw [runLoop_none files.length files 0 0 h]
  simp

theorem pageActsNoStop_mem (total : Nat) (ps : List Bool) (idx : Nat) (x : Act)
    (h : x ∈ (pageActsNoStop total ps idx).1) : ∃ p, x = Act.progressFile p := by
  induction ps generalizing idx with
  | nil => cases h
  | cons pr rest ih =>
    simp only [pageActsNoStop] at h
    by_cases hp : pr = true
    · simp [hp] at h
    · simp only [hp, Bool.false_eq_true, if_false, List.mem_cons] at h
      rcases h with h1 | h2
      · exact ⟨_, h1⟩
      · exact ih (idx + 1) h2

theorem pageActsNoStop_raised_iff (total : Nat) (ps : List Bool) (idx : Nat) :
    (pageActsNoStop total ps idx).2 = PRes.raised ↔ true ∈ ps := by
  induction ps generalizing idx with
  | nil => simp [pageActsNoStop]
  | cons pr rest ih =>
    by_cases hp : pr = true
    · subst hp
      simp [pageActsNoStop]
    · rw [Bool.not_eq_true] at hp
      subst hp
      simp [pageActsNoStop, ih (idx + 1)]

theorem fileActs_started_mem (total i : Nat) (e : FileEnv) :
    Act.fileStarted i ∈ fileActsNoStop total i e := by
  unfold fileActsNoStop
  simp

theorem fileActs_error_mem (total i : Nat) (e : FileEnv)
    (hf : bodyFailsB e = true) :
    Act.fileFinished i Status.error 0 0 Sav.dash ∈ fileActsNoStop total i e := by
  unfold fileActsNoStop
  unfold bodyFailsB at hf
  cases hb : e.beforeSize with
  | none => simp [errActs]
  | some before =>
    rw [hb] at hf
    cases hp : e.pages with
    | none => simp [errActs]
    | some ps =>
      rw [hp] at hf
      dsimp only
      cases hres : (pageActsNoStop ps.length ps 0).2 with
      | raised => simp [errActs]
      | fellThrough =>
        have hnot : true ∉ ps := by
          intro hmem
          rw [← pageActsNoStop_raised_iff ps.length ps 0] at hmem
          rw [hres] at hmem
          cases hmem
        simp only [decide_eq_true_eq] at hf
        have hsv : e.saveResult = none := by
          rcases Bool.or_eq_true_iff.mp hf with h1 | h2
          · exact absurd (of_decide_eq_true h1) hnot
          · exact Option.isNone_iff_eq_none.mp h2
        rw [hsv]
        simp [errActs]

theorem fileActs_saved_mem (total i : Nat) (e : FileEnv) (j : Nat)
    (h : Act.saved j ∈ fileActsNoStop total i e) :
    j = i ∧ bodyFailsB e = false := by
  unfold fileActsNoStop at h
  unfold bodyFailsB
  cases hb : e.beforeSize with
  | none =>
    rw [hb] at h
    simp [errActs] at h
  | some before =>
    rw [hb] at h
    cases hp : e.pages with
    | none =>
      rw [hp] at h
      simp [errActs] at h
    | some ps =>
      rw [hp] at h
      dsimp only at h
      cases hres : (pageActsNoStop ps.length ps 0).2 with
      | raised =>
        rw [hres] at h
        simp [errActs] at h
        obtain ⟨p, hp2⟩ := pageActsNoStop_mem ps.length ps 0 _ h
        cases hp2
      | fellThrough =>
        rw [hres] at h
        have hnot : true ∉ ps := by
          intro hmem
          rw [← pageActsNoStop_raised_iff ps.length ps 0] at hmem
          rw [hres] at hmem
          cases hmem
        cases hsv : e.saveResult with
        | none =>
          rw [hsv] at h
          simp [errActs] at h
          obtain ⟨p, hp2⟩ := pageActsNoStop_mem ps.length ps 0 _ h
          cases hp2
        | some after =>
          rw [hsv] at h
          simp [errActs] at h
          rcases h with h1 | h2
          · obtain ⟨p, hp2⟩ := pageActsNoStop_mem ps.length ps 0 _ h1
            cases hp2
          · refine ⟨h2, ?_⟩
            simp [hnot]

theorem mem_batch (total : Nat) (fs : List FileEnv) (i j : Nat)
    (hj : j < fs.length) (x : Act)
    (hx : x ∈ fileActsNoStop total (i + j) (fs.get ⟨j, hj⟩)) :
    x ∈ batchActsNoStop total fs i := by
  induction fs generalizing i j with
  | nil => cases hj
  | cons e rest ih =>
    cases j with
    | zero =>
      simp only [batchActsNoStop, List.mem_append]
      exact Or.inl (by simpa using hx)
    | succ j' =>
      simp only [batchActsNoStop, List.mem_append]
      refine Or.inr (ih (i + 1) j' (Nat.lt_of_succ_lt_succ hj) ?_)
      have harith : i + (j' + 1) = i + 1 + j' := by omega
      rw [harith] at hx
      simpa using hx

theorem batch_saved_mem (total : Nat) (fs : List FileEnv) (i j : Nat)
    (h : Act.saved j ∈ batchActsNoStop total fs i) :
    ∃ m, ∃ hm : m < fs.length, i + m = j ∧
      bodyFailsB (fs.get ⟨m, hm⟩) = false := by
  induction fs generalizing i with
  | nil => cases h
  | cons e rest ih =>
    simp only [batchActsNoStop, List.mem_append] at h
    rcases h with h1 | h2
    · obtain ⟨hj, hok⟩ := fileActs_saved_mem total i e j h1
      exact ⟨0, Nat.succ_pos _, by omega, by simpa using hok⟩
    · obtain ⟨m, hm, hij, hok⟩ := ih (i + 1) h2
      exact ⟨m + 1, Nat.succ_lt_succ hm, by omega, by simpa using hok⟩

theorem countFinished_append (xs ys : List Act) :
    countFinished (xs ++ ys) = countFinished xs + countFinished ys := by
  induction xs with
  | nil => simp [countFinished]
  | cons a rest ih => cases a <;> simp [countFinished, ih] <;> omega

theorem countFinished_eq_zero (xs : List Act) (h : Act.finished ∉ xs) :
    countFinished xs = 0 := by
  induction xs with
  | nil => rfl
  | cons a rest ih =>
    have hr : Act.finished ∉ rest := fun hm => h (List.mem_cons_of_mem _ hm)
    cases a <;> simp [countFinished, ih hr]
    exact h (List.mem_cons_self _ _)

theorem run_acts_cases (files : List FileEnv) (stopAt : Option Nat) :
    (run files stopAt).1 = (runLoop stopAt files.length files 0 0).1 ∨
    (run files stopAt).1 =
      (runLoop stopAt files.length files 0 0).1 ++ [Act.finished] := by
  simp only [run]
  cases h2 : (runLoop stopAt files.length files 0 0).2 <;> simp [h2]

/-!
### The claims
-/

/-- **C1, counterexample.**  The claim "the transform never upscales in
either axis" is false: `_downscale` resizes to exactly the target
dimensions whenever one axis exceeds its target, so the other axis can
be enlarged.  A 2000x50 image on a 720x72-point page at dpi 100 (targets
1000x100) comes out 1000x100: the height grew from 50 to 100. -/
theorem downscale_upscales_height :
    (downscale ⟨"RGB", 2000, 50, []⟩ 1000 100).height = 100 ∧
      ¬(downscale ⟨"RGB", 2000, 50, []⟩ 1000 100).height ≤
        (PImage.mk "RGB" 2000 50 []).height := by
  decide

/-- **C1, amended.**  `_downscale` returns the image unchanged when both
dimensions are within target; otherwise it resizes to exactly the target
dimensions.  Hence each output dimension never exceeds the max of the
original and target dimension, and when both axes exceed their targets
nothing is upscaled; but the non-exceeding axis may be upscaled up to
its target. -/
theorem downscale_bounds (img : PImage) (tw th : Nat) :
    (img.width ≤ tw → img.height ≤ th → downscale img tw th = img) ∧
    (downscale img tw th).width ≤ max img.width tw ∧
    (downscale img tw th).height ≤ max img.height th ∧
    (tw ≤ img.width → th ≤ img.height →
      (downscale img tw th).width ≤ img.width ∧
        (downscale img tw th).height ≤ img.height) := by
  unfold downscale PImage.resize
  by_cases h : img.width ≤ tw ∧ img.height ≤ th <;> simp [h] <;> omega

/-- Witness for `downscale_bounds` at a concrete image within target. -/
theorem downscale_bounds_witness :
    downscale ⟨"RGB", 800, 40, []⟩ 1000 100 = ⟨"RGB", 800, 40, []⟩ :=
  (downscale_bounds ⟨"RGB", 800, 40, []⟩ 1000 100).1 (by decide) (by decide)

/-- **C2, counterexample.**  The code truncates with `int(...)`, it does
not round to the nearest integer: for a page 200.5 points wide at
dpi 150 the exact value is 60150/144 = 417.7083..., which the code turns
into 417 while the claimed nearest-integer rounding gives 418. -/
theorem targetDim_not_rounded :
    targetDim ((401 : ℚ)/2) 150 = 417 ∧ targetDimSpec ((401 : ℚ)/2) 150 = 418 := by
  have h : ⌊((401:ℚ)/2) / 72 * 150⌋ = (417 : ℤ) := by
    rw [Int.floor_eq_iff]
    norm_num
  constructor
  · have h0 : (0:ℚ) ≤ ((401:ℚ)/2) / 72 * 150 := by norm_num
    simp [targetDim, pyInt, h0, h]
  · have h2 : pyRoundEven (((401:ℚ)/2) / 72 * 150) = 418 := by
      unfold pyRoundEven
      rw [h]
      norm_num
    simp [targetDimSpec, h2]

/-- **C2, amended.**  The target dimension is
`max(1, trunc(points / 72 * dpi))`, truncation toward zero, which for
the nonnegative page dimensions equals the floor; it is at least 1 and
lies within 1 below the exact value. -/
theorem targetDim_floor (points : ℚ) (dpi : Nat) (hw : 0 ≤ points) :
    targetDim points dpi = max 1 (Int.toNat ⌊points / 72 * (dpi : ℚ)⌋) ∧
    1 ≤ targetDim points dpi ∧
    points / 72 * (dpi : ℚ) - 1 < (targetDim points dpi : ℚ) := by
  have hq : (0:ℚ) ≤ points / 72 * (dpi : ℚ) :=
    mul_nonneg (div_nonneg hw (by norm_num)) (Nat.cast_nonneg dpi)
  have h1 : targetDim points dpi = max 1 (Int.toNat ⌊points / 72 * (dpi : ℚ)⌋) := by
    unfold targetDim pyInt
    rw [if_pos hq]
  refine ⟨h1, ?_, ?_⟩
  · rw [h1]
    exact le_max_left 1 _
  · rw [h1]
    have hfl : points / 72 * (dpi : ℚ) - 1 < (⌊points / 72 * (dpi : ℚ)⌋ : ℚ) :=
      Int.sub_one_lt_floor _
    have h0 : (0:ℤ) ≤ ⌊points / 72 * (dpi : ℚ)⌋ := Int.floor_nonneg.mpr hq
    have hcast : ((Int.toNat ⌊points / 72 * (dpi : ℚ)⌋ : ℕ) : ℚ) =
        ((⌊points / 72 * (dpi : ℚ)⌋ : ℤ) : ℚ) := by
      exact_mod_cast congrArg (fun z : ℤ => (z : ℚ)) (Int.toNat_of_nonneg h0)
    calc points / 72 * (dpi : ℚ) - 1
        < ((⌊points / 72 * (dpi : ℚ)⌋ : ℤ) : ℚ) := hfl
      _ = ((Int.toNat ⌊points / 72 * (dpi : ℚ)⌋ : ℕ) : ℚ) := hcast.symm
      _ ≤ ((max 1 (Int.toNat ⌊points / 72 * (dpi : ℚ)⌋) : ℕ) : ℚ) := by
          exact_mod_cast le_max_right 1 _

/-- Witness for `targetDim_floor` at the concrete page width 200.5. -/
theorem targetDim_floor_witness :
    (0:ℚ) ≤ (401 : ℚ)/2 ∧ 1 ≤ targetDim ((401 : ℚ)/2) 150 :=
  ⟨by norm_num, (targetDim_floor ((401 : ℚ)/2) 150 (by norm_num)).2.1⟩

/-- **C3.**  The savings a successfully processed file reports is
`round((1 - after/before) * 100, 1)` when `before > 0` and `0` when
`before = 0` (the zero branch never divides: the code assigns the
constant `0`), and that exact value is what the `file_finished` signal
of a successful run carries. -/
theorem savings_formula (before after : Nat) :
    (0 < before →
      savingsOf before after = pyRound1 ((1 - (after:ℚ)/(before:ℚ)) * 100)) ∧
    (before = 0 → savingsOf before after = 0) ∧
    Act.fileFinished 0 Status.done before after (Sav.pct (savingsOf before after)) ∈
      (run [⟨false, some before, some [], some after⟩] none).1 := by
  refine ⟨fun h => by simp [savingsOf, h], fun h => by simp [savingsOf, h], ?_⟩
  rw [run_none _ (by intro e he; simp at he; rw [he])]
  simp [batchActsNoStop, fileActsNoStop, pageActsNoStop]

/-- Witness for `savings_formula` with `before = 10`, `after = 5`. -/
theorem savings_formula_witness :
    savingsOf 10 5 = pyRound1 ((1 - (5:ℚ)/(10:ℚ)) * 100) :=
  (savings_formula 10 5).1 (by decide)

/-- **C5, counterexample.**  When `_determine_output_path` raises (its
`mkdir` can fail), the exception escapes `run` before the `try` block,
so the `finished` signal is never emitted: the claim "the terminal
finished signal is emitted exactly once for every batch run" fails. -/
theorem run_finished_not_emitted :
    countFinished (run [⟨true, none, none, none⟩] none).1 = 0 ∧
      (run [⟨true, none, none, none⟩] none).2 = true := by
  constructor <;> rfl

/-- **C5, amended.**  Provided no file's output-path computation raises,
`finished` is emitted exactly once — for every file list, every stop
request time, and regardless of how many files error. -/
theorem run_finished_once (files : List FileEnv) (stopAt : Option Nat)
    (h : ∀ e ∈ files, e.outputPathFails = false) :
    countFinished (run files stopAt).1 = 1 := by
  have hab := runLoop_not_aborted stopAt files.length files 0 0 h
  have hnf := runLoop_no_finished stopAt files.length files 0 0
  simp only [run]
  rw [hab]
  simp only [Bool.false_eq_true, if_false]
  rw [countFinished_append, countFinished_eq_zero _ hnf]
  rfl

/-- Witness for `run_finished_once`: a one-file batch with an
immediately-failing stat and a stop requested from the start. -/
theorem run_finished_once_witness :
    (∀ e ∈ [(⟨false, none, none, none⟩ : FileEnv)], e.outputPathFails = false) ∧
      countFinished (run [⟨false, none, none, none⟩] (some 0)).1 = 1 :=
  ⟨by decide, run_finished_once [⟨false, none, none, none⟩] (some 0) (by decide)⟩

/-- **C4, counterexample.**  Not every exception while processing a file
is caught at the file level: `_determine_output_path` (its `mkdir` can
raise) is called before the `try` block, so its exception escapes `run`,
no Error outcome is reported for the file, and the batch does not
continue with the next file. -/
theorem run_output_path_aborts :
    (run [⟨true, some 5, some [], some 3⟩, ⟨false, some 5, some [], some 3⟩] none).2 = true ∧
    Act.fileFinished 0 Status.error 0 0 Sav.dash ∉
      (run [⟨true, some 5, some [], some 3⟩, ⟨false, some 5, some [], some 3⟩] none).1 ∧
    Act.fileStarted 1 ∉
      (run [⟨true, some 5, some [], some 3⟩, ⟨false, some 5, some [], some 3⟩] none).1 := by
  decide

/-- **C4, amended.**  For files whose output-path computation does not
raise, any exception while processing the file (stat, open, a page
raising, save) is caught at file level and reported as an Error outcome
with `beforeSize` and `afterSize` both 0 and the savings column "-", no
output is saved for that file, and the batch continues: every file of
the batch is still started. -/
theorem run_file_errors_contained (files : List FileEnv)
    (h : ∀ e ∈ files, e.outputPathFails = false)
    (j : Nat) (hj : j < files.length)
    (hf : bodyFailsB (files.get ⟨j, hj⟩) = true) :
    Act.fileFinished j Status.error 0 0 Sav.dash ∈ (run files none).1 ∧
    Act.saved j ∉ (run files none).1 ∧
    ∀ i, i < files.length → Act.fileStarted i ∈ (run files none).1 := by
  rw [run_none files h]
  refine ⟨?_, ?_, ?_⟩
  · apply List.mem_append.mpr
    refine Or.inl (mem_batch files.length files 0 j hj _ ?_)
    have hmm := fileActs_error_mem files.length j (files.get ⟨j, hj⟩) hf
    simpa using hmm
  · intro hmem
    rcases List.mem_append.mp hmem with h1 | h2
    · obtain ⟨m, hm, him, hok⟩ := batch_saved_mem files.length files 0 j h1
      have hmj : m = j := by omega
      subst hmj
      rw [hf] at hok
      cases hok
    · simp at h2
  · intro i hi
    apply List.mem_append.mpr
    refine Or.inl (mem_batch files.length files 0 i hi _ ?_)
    have hmm := fileActs_started_mem files.length i (files.get ⟨i, hi⟩)
    simpa using hmm

/-- Witness for `run_file_errors_contained`: a one-file batch whose
stat call raises. -/
theorem run_file_errors_contained_witness :
    Act.fileFinished 0 Status.error 0 0 Sav.dash ∈
      (run [⟨false, none, none, none⟩] none).1 :=
  (run_file_errors_contained [⟨false, none, none, none⟩] (by decide) 0
    (by decide) (by decide)).1

/-- **C8.**  Cancellation is cooperative: for every file list and stop
time, (i) an output document is saved only for files reported Done — in
particular the in-flight file abandoned by a stop never has its output
saved; (ii) whenever a file is started, every earlier file already has a
terminal `file_finished` report, so once a stop takes effect at a file
boundary no later file is ever started (they stay pending); (iii) a stop
request already set at the first poll ends the run with nothing but the
single `finished` emission.  (The embedding polls the stop flag only at
file and page boundaries, exactly where the code does, so no in-flight
image transform is interrupted.) -/
theorem run_cancellation (files : List FileEnv) (t : Nat) :
    (∀ j, Act.saved j ∈ (run files (some t)).1 →
      ∃ b a sv, Act.fileFinished j Status.done b a sv ∈ (run files (some t)).1) ∧
    (∀ i j, i < j → Act.fileStarted j ∈ (run files (some t)).1 →
      ∃ st b a sv, Act.fileFinished i st b a sv ∈ (run files (some t)).1) ∧
    (run files (some 0)).1 = [Act.finished] := by
  refine ⟨?_, ?_, ?_⟩
  · intro j hj
    rcases run_acts_cases files (some t) with hc | hc <;> rw [hc] at hj ⊢
    · exact runLoop_saved (some t) files.length files 0 0 j hj
    · rcases List.mem_append.mp hj with h1 | h2
      · obtain ⟨b, a, sv, hf⟩ := runLoop_saved (some t) files.length files 0 0 j h1
        exact ⟨b, a, sv, List.mem_append.mpr (Or.inl hf)⟩
      · simp at h2
  · intro i j hij hj
    rcases run_acts_cases files (some t) with hc | hc <;> rw [hc] at hj ⊢
    · exact runLoop_seq (some t) files.length files 0 0 i j (Nat.zero_le i) hij hj
    · rcases List.mem_append.mp hj with h1 | h2
      · obtain ⟨st, b, a, sv, hf⟩ :=
          runLoop_seq (some t) files.length files 0 0 i j (Nat.zero_le i) hij h1
        exact ⟨st, b, a, sv, List.mem_append.mpr (Or.inl hf)⟩
      · simp at h2
  · cases files with
    | nil => rfl
    | cons e rest => simp [run, runLoop, isSet]

/-- Witness for `run_cancellation`: a stop request pending before the
run starts leaves a two-file batch entirely unprocessed. -/
theorem run_cancellation_witness :
    (run [⟨false, some 5, some [], some 3⟩, ⟨false, some 4, some [], some 2⟩]
      (some 0)).1 = [Act.finished] :=
  (run_cancellation [⟨false, some 5, some [], some 3⟩, ⟨false, some 4, some [], some 2⟩] 0).2.2

/-- **C9.**  For every color mode other than exactly "Color" and
"Grayscale" — including the GUI's "BW" and any unrecognized string —
`_colorize` takes the black-and-white path: convert to luminance ("L"),
threshold to 1-bit ("1"), then expand back to "L", so the image that
reaches the JPEG encoder is always single-channel. -/
theorem colorize_bw_path (s : CompressionSettings) (img : PImage)
    (h1 : s.color_mode ≠ "Color") (h2 : s.color_mode ≠ "Grayscale") :
    (colorize s img).mode = "L" ∧
    (colorize s img).converts = img.converts ++ ["L", "1", "L"] ∧
    modeChannels (colorize s img).mode = 1 := by
  unfold colorize
  rw [if_neg h1, if_neg h2]
  simp [PImage.convert, modeChannels]

/-- Witness for `colorize_bw_path` at color mode "BW". -/
theorem colorize_bw_path_witness :
    (colorize ⟨200, "BW", 75, false, false, none, true⟩ ⟨"RGB", 2000, 1000, []⟩).mode = "L" :=
  (colorize_bw_path ⟨200, "BW", 75, false, false, none, true⟩ ⟨"RGB", 2000, 1000, []⟩
    (by decide) (by decide)).1

/-- **C6.**  With `skipSmallImages` set, every image whose decoded width
is under 1000 pixels is skipped before any re-encoding, so the bytes
stored at its xref after the page is processed are exactly the input
bytes (xrefs assumed distinct, as each embedded image object has its own
xref). -/
theorem skip_small_images_untouched (s : CompressionSettings)
    (doc : Nat → List Nat) (images : List PageImage)
    (hs : s.skip_small_images = true)
    (hnd : (images.map PageImage.xref).Nodup)
    (img : PageImage) (hmem : img ∈ images)
    (w : Nat) (hw : img.behavior.decodeWidth = some w) (hsmall : w < 1000) :
    (processPageImages s doc images).1 img.xref = doc img.xref := by
  rw [processPageImages_eq, processImagesList_fst_at]
  have hwr : imgWrites s img.behavior = none := by
    unfold imgWrites
    cases hext : img.behavior.extractResult with
    | none => rfl
    | some bytes =>
      by_cases hb : bytes = []
      · simp [hb]
      · simp only [hb, if_false]
        rw [hw]
        simp [hs, hsmall]
  rw [finalAt_unique s img.xref (doc img.xref) images img hmem rfl hnd, hwr]

/-- Witness for `skip_small_images_untouched`: a 500-pixel-wide image
stays byte-identical. -/
theorem skip_small_images_untouched_witness :
    (processPageImages ⟨200, "Color", 75, false, true, none, true⟩ (fun _ => [7, 7])
      [⟨3, ⟨some [1, 2], some 500, some [9], false, false⟩⟩]).1 3 = [7, 7] :=
  skip_small_images_untouched ⟨200, "Color", 75, false, true, none, true⟩
    (fun _ => [7, 7]) [⟨3, ⟨some [1, 2], some 500, some [9], false, false⟩⟩]
    (by decide) (by decide) ⟨3, ⟨some [1, 2], some 500, some [9], false, false⟩⟩
    (by decide) 500 (by decide) (by decide)

/-- **C7, counterexample.**  An empty extraction payload is skipped
*silently*: the code's `if not image_bytes: continue` emits no log
entry, refuting the claim that every such skip produces "a log entry
carrying the image's reference key". -/
theorem empty_payload_not_logged :
    (processPageImages ⟨200, "Color", 75, false, false, none, true⟩ (fun _ => [7])
      [⟨5, ⟨some [], none, none, false, false⟩⟩]).2 = [] := by
  decide

/-- **C7, amended.**  For each image reference on a page (xrefs
distinct): an extraction failure, decode failure, encode failure, or
replace-and-update failure leaves the bytes at that xref untouched and
emits a log entry carrying the xref; an *empty extraction payload* also
leaves the bytes untouched but is skipped silently, with no log entry;
and processing always continues through the whole reference list — a
successfully transcoded image has its new bytes stored regardless of
what happened to other images on the page. -/
theorem image_errors_contained (s : CompressionSettings) (doc : Nat → List Nat)
    (images : List PageImage) (hnd : (images.map PageImage.xref).Nodup)
    (img : PageImage) (hmem : img ∈ images) :
    (imgWrites s img.behavior = none →
      (processPageImages s doc images).1 img.xref = doc img.xref) ∧
    (imgLogs s img.behavior = true →
      PageAct.logSkip img.xref ∈ (processPageImages s doc images).2) ∧
    (img.behavior.extractResult = some [] →
      PageAct.logSkip img.xref ∉ (processPageImages s doc images).2) ∧
    (∀ jpeg, imgWrites s img.behavior = some jpeg →
      (processPageImages s doc images).1 img.xref = jpeg) := by
  rw [processPageImages_eq]
  refine ⟨?_, ?_, ?_, ?_⟩
  · intro hwr
    rw [processImagesList_fst_at,
      finalAt_unique s img.xref (doc img.xref) images img hmem rfl hnd, hwr]
  · intro hl
    rw [processImagesList_snd]
    exact pageTrace_mem_of s images img hmem hl
  · intro hext hmem2
    rw [processImagesList_snd] at hmem2
    obtain ⟨im2, hm2, hx2, hl2⟩ := mem_pageTrace s images img.xref hmem2
    have him : im2 = img := List.inj_on_of_nodup_map hnd hm2 hmem hx2
    subst him
    unfold imgLogs at hl2
    rw [hext] at hl2
    simp at hl2
  · intro jpeg hwr
    rw [processImagesList_fst_at,
      finalAt_unique s img.xref (doc img.xref) images img hmem rfl hnd, hwr]

/-- Witness for `image_errors_contained`: a page with a decode-failing
image (logged, untouched) followed by a successful one (replaced). -/
theorem image_errors_contained_witness :
    (processPageImages ⟨200, "Color", 75, false, false, none, true⟩ (fun _ => [7])
      [⟨3, ⟨some [1], none, none, false, false⟩⟩,
       ⟨4, ⟨some [2], some 2000, some [9, 9], false, false⟩⟩]).1 3 = [7] :=
  (image_errors_contained ⟨200, "Color", 75, false, false, none, true⟩ (fun _ => [7])
    [⟨3, ⟨some [1], none, none, false, false⟩⟩,
     ⟨4, ⟨some [2], some 2000, some [9, 9], false, false⟩⟩]
    (by decide) ⟨3, ⟨some [1], none, none, false, false⟩⟩ (by decide)).1 (by decide)

/-- **C10.**  A batch over an empty file list terminates immediately
with exactly the single `finished` action: no file-started,
file-finished or progress event is emitted (and the `total` divisor is
only ever used inside the per-file loop, whose body never runs). -/
theorem run_empty (stopAt : Option Nat) : run [] stopAt = ([Act.finished], false) :=
  rfl

end PdfCompress
